import Mathlib

/-!
Shallow embedding of src/src/con.c (container-tree core of a tiling window
manager) and proofs about its operations.

Modelling conventions:
* A container (`Con` in the C source) is identified by a natural-number id.
  The process-wide mutable heap is a `State`: a total map from ids to `Con`
  records plus the registry list (`all_cons`), the global focus pointer
  (`focused`), the allocator cursor (`next_id`), the static color counter of
  `con_new` (`cnt`) and the log of `workspace_update_urgent_flag` calls
  (`notifications`, one entry per call, holding the workspace id passed).
* Intrusive `TAILQ` lists become `List Nat` fields.  `TAILQ_INSERT_TAIL` is
  list append, `TAILQ_INSERT_HEAD` is cons, and `TAILQ_REMOVE` of a present
  element is `List.erase`.  `TAILQ_REMOVE` of an element that is not on the
  list, like a NULL-pointer dereference, is undefined behaviour in C; both
  are modelled as the `none` result of an `Option`-returning operation.
* C `double` arithmetic on `percent` is modelled by exact rational
  arithmetic (`ℚ`): the formulas of `con_fix_percent` are division-safe for
  the child counts that actually occur, and the spec's round-trip property
  is stated over exact arithmetic.
* Fuelled recursion replaces unbounded loops (`while`-walks over parent
  pointers, the breadth-first queue, the recursion of `con_focus`); a result
  of `none` at the outer `Option` layer means the fuel ran out, which on a
  well-formed finite tree never happens for sufficient fuel.
* External collaborators (X11 calls `x_con_init`, `xcb_change_property`,
  `xcb_change_window_attributes`, logging) have no effect on the tree state
  and are omitted, except `workspace_update_urgent_flag`, which is recorded
  in `notifications` because claim C10 counts its invocations.
-/

namespace I3

/-- Container kinds (`CT_ROOT`, `CT_OUTPUT`, `CT_CON`, `CT_FLOATING_CON`,
`CT_WORKSPACE`); the header defining the enum is not part of the shown
source, but `con.c` uses exactly these constants. -/
inductive CType where
  | CT_ROOT
  | CT_OUTPUT
  | CT_CON
  | CT_FLOATING_CON
  | CT_WORKSPACE
deriving DecidableEq

export CType (CT_ROOT CT_OUTPUT CT_CON CT_FLOATING_CON CT_WORKSPACE)

/-- Split orientations (`NO_ORIENTATION`, `HORIZ`, `VERT`). -/
inductive COrient where
  | NO_ORIENTATION
  | HORIZ
  | VERT
deriving DecidableEq

export COrient (NO_ORIENTATION HORIZ VERT)

/-- Fullscreen modes: `CF_NONE` and `CF_OUTPUT` (the spec's `None` and
`PerOutput`). -/
inductive CFMode where
  | CF_NONE
  | CF_OUTPUT
deriving DecidableEq

export CFMode (CF_NONE CF_OUTPUT)

/-- The `action` argument of `con_fix_percent` (`WINDOW_ADD` /
`WINDOW_REMOVE`). -/
inductive WAction where
  | WINDOW_ADD
  | WINDOW_REMOVE
deriving DecidableEq

export WAction (WINDOW_ADD WINDOW_REMOVE)

/-- One container record (struct `Con`), restricted to the fields that the
operations of con.c touch.  `parent` is `none` for the root, `window` holds
the id of an externally owned window if any; `nodes_head`, `floating_head`
and `focus_head` are the three intrusive child lists of the source. -/
@[ext] structure Con where
  type : CType
  name : String
  orientation : COrient
  percent : ℚ
  window : Option Nat
  fullscreen_mode : CFMode
  urgent : Bool
  parent : Option Nat
  nodes_head : List Nat
  floating_head : List Nat
  focus_head : List Nat

/-- The process-wide state: heap of containers, registry (`all_cons`),
global focus pointer (`focused`), id allocator, the static counter `cnt`
of `con_new`, and the log of `workspace_update_urgent_flag` calls. -/
@[ext] structure State where
  cons : Nat → Con
  all_cons : List Nat
  focused : Option Nat
  next_id : Nat
  cnt : Nat
  notifications : List Nat

/-- Point update of a single container in the heap. -/
def mapCon (s : State) (i : Nat) (g : Con → Con) : State :=
  { s with cons := Function.update s.cons i (g (s.cons i)) }

theorem mapCon_cons (s : State) (i : Nat) (g : Con → Con) (x : Nat) :
    (mapCon s i g).cons x = if x = i then g (s.cons i) else s.cons x :=
  Function.update_apply ..

@[simp] theorem mapCon_cons_same (s : State) (i : Nat) (g : Con → Con) :
    (mapCon s i g).cons i = g (s.cons i) :=
  Function.update_same ..

theorem mapCon_cons_ne (s : State) (i : Nat) (g : Con → Con) (x : Nat)
    (h : x ≠ i) : (mapCon s i g).cons x = s.cons x :=
  Function.update_noteq h ..

@[simp] theorem mapCon_all_cons (s : State) (i : Nat) (g : Con → Con) :
    (mapCon s i g).all_cons = s.all_cons := rfl

@[simp] theorem mapCon_focused (s : State) (i : Nat) (g : Con → Con) :
    (mapCon s i g).focused = s.focused := rfl

@[simp] theorem mapCon_next_id (s : State) (i : Nat) (g : Con → Con) :
    (mapCon s i g).next_id = s.next_id := rfl

@[simp] theorem mapCon_cnt (s : State) (i : Nat) (g : Con → Con) :
    (mapCon s i g).cnt = s.cnt := rfl

@[simp] theorem mapCon_notifications (s : State) (i : Nat) (g : Con → Con) :
    (mapCon s i g).notifications = s.notifications := rfl

/-- The debug color palette of con.c (`char *colors[]`). -/
def colors : List String :=
  ["#ff0000", "#00FF00", "#0000FF", "#ff00ff", "#00ffff",
   "#ffff00", "#aa0000", "#00aa00", "#0000aa", "#aa00aa"]

/-- `con_attach`: sets `con->parent`, then `TAILQ_INSERT_TAIL` into the
parent's `nodes_head` and `focus_head`. -/
def con_attach (s : State) (c p : Nat) : State :=
  let s1 := mapCon s c (fun k => { k with parent := some p })
  let s2 := mapCon s1 p (fun k => { k with nodes_head := k.nodes_head ++ [c] })
  mapCon s2 p (fun k => { k with focus_head := k.focus_head ++ [c] })

/-- `TAILQ_REMOVE`: removing a present element unlinks it (first occurrence);
removing an absent element manipulates stale intrusive pointers, which is
undefined behaviour in C and is modelled as `none`. -/
def tailq_remove (l : List Nat) (x : Nat) : Option (List Nat) :=
  if x ∈ l then some (l.erase x) else none

/-- `con_detach`: for a `CT_FLOATING_CON` removes the node from the parent's
`floating_head` and `focus_head`, otherwise from `nodes_head` and
`focus_head`.  The source performs no precondition check whatsoever: a NULL
`con->parent` is dereferenced and an absent element is unlinked through
stale pointers; both undefined behaviours are modelled as `none`. -/
def con_detach (s : State) (c : Nat) : Option State :=
  match (s.cons c).parent with
  | none => none
  | some p =>
    if (s.cons c).type = CT_FLOATING_CON then do
      let fl ← tailq_remove (s.cons p).floating_head c
      let fo ← tailq_remove (s.cons p).focus_head c
      some (mapCon s p (fun k => { k with floating_head := fl, focus_head := fo }))
    else do
      let nd ← tailq_remove (s.cons p).nodes_head c
      let fo ← tailq_remove (s.cons p).focus_head c
      some (mapCon s p (fun k => { k with nodes_head := nd, focus_head := fo }))

/-- `con_new`: `scalloc` produces a zero-initialised `Con` (orientation
`NO_ORIENTATION`, `percent` 0, no window, `CF_NONE`, not urgent, no parent,
empty lists); the node is appended to the registry tail, `type` is set to
`CT_CON`, `name` is set to `strdup("")` and then immediately overwritten by
`strdup(colors[cnt])` (the debug coloring), the static counter `cnt` is
incremented and wraps to 0 at `sizeof(colors)/sizeof(char*) = 10`, and the
node is attached iff a parent was given.  X11 frame creation is external
and stateless here.  Returns the updated state and the new node's id. -/
def con_new (s : State) (parent? : Option Nat) : State × Nat :=
  let i := s.next_id
  let newCon : Con :=
    { type := CT_CON, name := colors.getD s.cnt "",
      orientation := NO_ORIENTATION, percent := 0, window := none,
      fullscreen_mode := CF_NONE, urgent := false, parent := none,
      nodes_head := [], floating_head := [], focus_head := [] }
  let cnt' := if (s.cnt + 1) % colors.length = 0 then 0 else s.cnt + 1
  let s1 : State :=
    { s with cons := Function.update s.cons i newCon,
             all_cons := s.all_cons ++ [i],
             next_id := i + 1, cnt := cnt' }
  match parent? with
  | some p => (con_attach s1 i p, i)
  | none => (s1, i)

/-- Loop body of `con_fix_percent`: skip children with `percent <= 0.0`,
multiply the others by the correction factor. -/
def percentStep (fix : ℚ) (s : State) (ch : Nat) : State :=
  if (s.cons ch).percent ≤ 0 then s
  else mapCon s ch (fun k => { k with percent := k.percent * fix })

/-- `con_fix_percent`: counts the children of `con`, computes
`fix = 1 - 1/(children+1)` for `WINDOW_ADD` and
`fix = 1 / (1 - 1/(children+1))` otherwise, and multiplies the `percent`
of every child with positive `percent` by `fix`. -/
def con_fix_percent (s : State) (c : Nat) (action : WAction) : State :=
  let children := (s.cons c).nodes_head.length
  let fix : ℚ :=
    if action = WINDOW_ADD then 1 - 1 / ((children : ℚ) + 1)
    else 1 / (1 - 1 / ((children : ℚ) + 1))
  (s.cons c).nodes_head.foldl (percentStep fix) s

theorem percentStep_cons_ne (fix : ℚ) (s : State) (ch x : Nat) (h : x ≠ ch) :
    (percentStep fix s ch).cons x = s.cons x := by
  unfold percentStep
  split
  · rfl
  · exact mapCon_cons_ne _ _ _ _ h

theorem percentStep_keeps (fix : ℚ) (s : State) (ch : Nat) :
    (percentStep fix s ch).all_cons = s.all_cons ∧
    (percentStep fix s ch).focused = s.focused ∧
    (percentStep fix s ch).next_id = s.next_id ∧
    (percentStep fix s ch).cnt = s.cnt ∧
    (percentStep fix s ch).notifications = s.notifications := by
  unfold percentStep
  split <;> simp

/-- Effect of the `con_fix_percent` fold on the heap, for a duplicate-free
child list: each listed child's `percent` is multiplied by `fix` when
positive and kept otherwise (all other fields intact), and every container
off the list is untouched. -/
theorem foldl_percentStep_cons (fix : ℚ) :
    ∀ (ids : List Nat) (s : State), ids.Nodup → ∀ x,
      (ids.foldl (percentStep fix) s).cons x =
        if x ∈ ids then
          (if (s.cons x).percent ≤ 0 then s.cons x
           else { s.cons x with percent := (s.cons x).percent * fix })
        else s.cons x := by
  intro ids
  induction ids with
  | nil => intro s _ x; simp
  | cons ch rest ih =>
    intro s hnd x
    have hch : ch ∉ rest := (List.nodup_cons.mp hnd).1
    have hrest : rest.Nodup := (List.nodup_cons.mp hnd).2
    simp only [List.foldl_cons]
    rw [ih (percentStep fix s ch) hrest x]
    by_cases hx : x = ch
    · subst hx
      rw [if_neg hch, if_pos (List.mem_cons_self x rest)]
      unfold percentStep
      by_cases hp : (s.cons x).percent ≤ 0
      · rw [if_pos hp, if_pos hp]
      · rw [if_neg hp, if_neg hp, mapCon_cons_same]
    · rw [percentStep_cons_ne fix s ch x hx]
      by_cases hxr : x ∈ rest
      · rw [if_pos hxr, if_pos (List.mem_cons_of_mem ch hxr)]
      · rw [if_neg hxr, if_neg (by simp [List.mem_cons, hx, hxr])]

theorem foldl_percentStep_keeps (fix : ℚ) :
    ∀ (ids : List Nat) (s : State),
      (ids.foldl (percentStep fix) s).all_cons = s.all_cons ∧
      (ids.foldl (percentStep fix) s).focused = s.focused ∧
      (ids.foldl (percentStep fix) s).next_id = s.next_id ∧
      (ids.foldl (percentStep fix) s).cnt = s.cnt ∧
      (ids.foldl (percentStep fix) s).notifications = s.notifications := by
  intro ids
  induction ids with
  | nil => intro s; exact ⟨rfl, rfl, rfl, rfl, rfl⟩
  | cons ch rest ih =>
    intro s
    simp only [List.foldl_cons]
    have h1 := percentStep_keeps fix s ch
    have h2 := ih (percentStep fix s ch)
    exact ⟨h2.1.trans h1.1, h2.2.1.trans h1.2.1, h2.2.2.1.trans h1.2.2.1,
      h2.2.2.2.1.trans h1.2.2.2.1, h2.2.2.2.2.trans h1.2.2.2.2⟩

/-- The two correction factors of `con_fix_percent` at child count `n ≥ 1`:
the `WINDOW_ADD` factor is positive and multiplying by the `WINDOW_REMOVE`
factor inverts it. -/
theorem fix_factors (n : ℕ) (hn : 1 ≤ n) :
    0 < 1 - 1 / ((n : ℚ) + 1) ∧
    (1 - 1 / ((n : ℚ) + 1)) * (1 / (1 - 1 / ((n : ℚ) + 1))) = 1 := by
  have h1 : (0:ℚ) < (n:ℚ) + 1 := by positivity
  have h2 : (1:ℚ) / ((n:ℚ) + 1) < 1 := by
    rw [div_lt_one h1]
    have h4 : (1:ℚ) ≤ (n:ℚ) := by exact_mod_cast hn
    linarith
  have h3 : (0:ℚ) < 1 - 1 / ((n:ℚ) + 1) := by linarith
  refine ⟨h3, ?_⟩
  field_simp

/-- Applying the `con_fix_percent` fold with a positive factor and then with
its inverse factor restores the state exactly (duplicate-free child list). -/
theorem foldl_percentStep_roundtrip (ids : List Nat) (s : State)
    (hnd : ids.Nodup) (fixA fixR : ℚ) (hpos : 0 < fixA)
    (hmul : fixA * fixR = 1) :
    ids.foldl (percentStep fixR) (ids.foldl (percentStep fixA) s) = s := by
  have hkA := foldl_percentStep_keeps fixA ids s
  have hkR := foldl_percentStep_keeps fixR ids (ids.foldl (percentStep fixA) s)
  refine State.ext (funext fun x => ?_) ?_ ?_ ?_ ?_ ?_
  · rw [foldl_percentStep_cons fixR ids (ids.foldl (percentStep fixA) s) hnd x,
        foldl_percentStep_cons fixA ids s hnd x]
    by_cases hx : x ∈ ids
    · rw [if_pos hx, if_pos hx]
      by_cases hp : (s.cons x).percent ≤ 0
      · simp only [if_pos hp]
      · have hgt : 0 < (s.cons x).percent := lt_of_not_le hp
        have hgt2 : ¬ (s.cons x).percent * fixA ≤ 0 := by
          simp only [not_le]
          exact mul_pos hgt hpos
        have harith : (s.cons x).percent * fixA * fixR = (s.cons x).percent := by
          rw [mul_assoc, hmul, mul_one]
        simp only [if_neg hp, if_neg hgt2, harith]
    · rw [if_neg hx, if_neg hx]
  · rw [hkR.1, hkA.1]
  · rw [hkR.2.1, hkA.2.1]
  · rw [hkR.2.2.1, hkA.2.2.1]
  · rw [hkR.2.2.2.1, hkA.2.2.2.1]
  · rw [hkR.2.2.2.2, hkA.2.2.2.2]

/-- A container with the zero-initialised defaults of `scalloc` (type
arbitrary since `con_new` always overwrites it). -/
def emptyCon : Con :=
  { type := CT_CON, name := "", orientation := NO_ORIENTATION, percent := 0,
    window := none, fullscreen_mode := CF_NONE, urgent := false,
    parent := none, nodes_head := [], floating_head := [], focus_head := [] }

/-- Heap of the running example: root 0 > output 1 > workspace 2 >
tiling children 3 and 4; 2 and 3 are urgent, 4 is fullscreen; 5 is a
detached plain container and 6 a detached floating container. -/
def exCons : Nat → Con := fun n =>
  if n = 0 then { emptyCon with type := CT_ROOT, nodes_head := [1], focus_head := [1] }
  else if n = 1 then { emptyCon with type := CT_OUTPUT, parent := some 0, nodes_head := [2], focus_head := [2] }
  else if n = 2 then { emptyCon with type := CT_WORKSPACE, parent := some 1, nodes_head := [3, 4], focus_head := [4, 3], urgent := true }
  else if n = 3 then { emptyCon with parent := some 2, percent := 1, urgent := true }
  else if n = 4 then { emptyCon with parent := some 2, percent := 1, fullscreen_mode := CF_OUTPUT }
  else if n = 6 then { emptyCon with type := CT_FLOATING_CON }
  else emptyCon

/-- The running example state. -/
def exS : State :=
  { cons := exCons, all_cons := [0, 1, 2, 3, 4], focused := none,
    next_id := 7, cnt := 0, notifications := [] }

/-- C4: for a parent with `n` children at call time (the child count after
the structural change, since the caller mutates the list first),
`con_fix_percent` multiplies the percent of exactly those children with
positive percent by `1 - 1/(n+1)` under `WINDOW_ADD` and by
`1/(1 - 1/(n+1))` under `WINDOW_REMOVE`; children with percent ≤ 0 and all
containers off the child list are left untouched. -/
theorem c4_con_fix_percent_scales (s : State) (c : Nat)
    (hnd : ((s.cons c).nodes_head).Nodup) :
    (∀ x ∈ (s.cons c).nodes_head,
      (con_fix_percent s c WINDOW_ADD).cons x =
        (if (s.cons x).percent ≤ 0 then s.cons x
         else { s.cons x with percent :=
             (s.cons x).percent * (1 - 1 / (((s.cons c).nodes_head.length : ℚ) + 1)) }) ∧
      (con_fix_percent s c WINDOW_REMOVE).cons x =
        (if (s.cons x).percent ≤ 0 then s.cons x
         else { s.cons x with percent :=
             (s.cons x).percent * (1 / (1 - 1 / (((s.cons c).nodes_head.length : ℚ) + 1))) })) ∧
    (∀ x, x ∉ (s.cons c).nodes_head →
      (con_fix_percent s c WINDOW_ADD).cons x = s.cons x ∧
      (con_fix_percent s c WINDOW_REMOVE).cons x = s.cons x) := by
  have hA : con_fix_percent s c WINDOW_ADD =
      (s.cons c).nodes_head.foldl
        (percentStep (1 - 1 / (((s.cons c).nodes_head.length : ℚ) + 1))) s := rfl
  have hR : con_fix_percent s c WINDOW_REMOVE =
      (s.cons c).nodes_head.foldl
        (percentStep (1 / (1 - 1 / (((s.cons c).nodes_head.length : ℚ) + 1)))) s := rfl
  constructor
  · intro x hx
    rw [hA, hR, foldl_percentStep_cons _ _ s hnd x, foldl_percentStep_cons _ _ s hnd x,
        if_pos hx, if_pos hx]
    exact ⟨rfl, rfl⟩
  · intro x hx
    rw [hA, hR, foldl_percentStep_cons _ _ s hnd x, foldl_percentStep_cons _ _ s hnd x,
        if_neg hx, if_neg hx]
    exact ⟨rfl, rfl⟩

/-- Witness for C4: children 3, 4 of workspace 2 in the example state have
percent 1 > 0, so `WINDOW_ADD` scales child 3 by the add factor, and
container 0 (not a child of 2) is untouched by `WINDOW_REMOVE`. -/
theorem c4_con_fix_percent_scales_witness :
    (con_fix_percent exS 2 WINDOW_ADD).cons 3 =
      { exS.cons 3 with percent :=
          (exS.cons 3).percent * (1 - 1 / (((exS.cons 2).nodes_head.length : ℚ) + 1)) } ∧
    (con_fix_percent exS 2 WINDOW_REMOVE).cons 0 = exS.cons 0 := by
  have h := c4_con_fix_percent_scales exS 2 (by decide)
  refine ⟨?_, (h.2 0 (by decide)).2⟩
  have h3 := (h.1 3 (by decide)).1
  rw [h3, if_neg (by exact (zero_lt_one (α := ℚ)).not_le : ¬ ((exS.cons 3).percent ≤ 0))]

/-- C5: `con_fix_percent` with `WINDOW_ADD` immediately followed by
`con_fix_percent` with `WINDOW_REMOVE` on the same parent (hence the same
child count, as the first call does not change any child list) restores
every child's percent — indeed the whole state — exactly, over exact
rational arithmetic. -/
theorem c5_con_fix_percent_roundtrip (s : State) (c : Nat)
    (hnd : ((s.cons c).nodes_head).Nodup) :
    con_fix_percent (con_fix_percent s c WINDOW_ADD) c WINDOW_REMOVE = s := by
  have hA : con_fix_percent s c WINDOW_ADD =
      (s.cons c).nodes_head.foldl
        (percentStep (1 - 1 / (((s.cons c).nodes_head.length : ℚ) + 1))) s := rfl
  by_cases hnil : (s.cons c).nodes_head = []
  · rw [hA, hnil]
    simp only [List.foldl_nil]
    have : con_fix_percent s c WINDOW_REMOVE =
        (s.cons c).nodes_head.foldl
          (percentStep (1 / (1 - 1 / (((s.cons c).nodes_head.length : ℚ) + 1)))) s := rfl
    rw [this, hnil]
    rfl
  · have hlen : 1 ≤ (s.cons c).nodes_head.length :=
      Nat.one_le_iff_ne_zero.mpr (fun h0 => hnil (List.length_eq_zero.mp h0))
    have hfac := fix_factors (s.cons c).nodes_head.length hlen
    have hnodes : ((con_fix_percent s c WINDOW_ADD).cons c).nodes_head = (s.cons c).nodes_head := by
      rw [hA, foldl_percentStep_cons _ _ s hnd c]
      by_cases hc : c ∈ (s.cons c).nodes_head
      · rw [if_pos hc]
        by_cases hp : (s.cons c).percent ≤ 0
        · rw [if_pos hp]
        · rw [if_neg hp]
      · rw [if_neg hc]
    have hR : con_fix_percent (con_fix_percent s c WINDOW_ADD) c WINDOW_REMOVE =
        ((con_fix_percent s c WINDOW_ADD).cons c).nodes_head.foldl
          (percentStep (1 / (1 - 1 /
            ((((con_fix_percent s c WINDOW_ADD).cons c).nodes_head.length : ℚ) + 1))))
          (con_fix_percent s c WINDOW_ADD) := rfl
    rw [hR, hnodes, hA]
    exact foldl_percentStep_roundtrip _ s hnd _ _ hfac.1 hfac.2

/-- Witness for C5: the add/remove round trip on workspace 2 of the
example state (children 3 and 4, each with percent 1) is the identity. -/
theorem c5_con_fix_percent_roundtrip_witness :
    con_fix_percent (con_fix_percent exS 2 WINDOW_ADD) 2 WINDOW_REMOVE = exS :=
  c5_con_fix_percent_roundtrip exS 2 (by decide)

/-- C6 counterexample: the claim quantifies over every fresh node, but for a
`CT_FLOATING_CON` node the attach/detach pair does not restore anything:
`con_attach` inserts into the parent's `nodes_head` while `con_detach`
removes floating containers from `floating_head`, where the node never was
— an unchecked `TAILQ_REMOVE` of an absent element, i.e. undefined
behaviour (`none`), so no resulting state restores the lists. -/
theorem c6_attach_detach_cex : con_detach (con_attach exS 6 2) 6 = none := by
  rfl

/-- C6 (amended): for a fresh node that is not a `CT_FLOATING_CON`,
attaching it to a parent and immediately detaching it restores the
parent's `children` and `focus_order` to exactly their pre-attach
contents and order. -/
theorem c6_attach_detach_roundtrip (s : State) (c p : Nat)
    (ht : (s.cons c).type ≠ CT_FLOATING_CON)
    (hn : c ∉ (s.cons p).nodes_head) (hf : c ∉ (s.cons p).focus_head)
    (hcp : c ≠ p) :
    ∃ s', con_detach (con_attach s c p) c = some s' ∧
      (s'.cons p).nodes_head = (s.cons p).nodes_head ∧
      (s'.cons p).focus_head = (s.cons p).focus_head := by
  have hcons_c : (con_attach s c p).cons c = { s.cons c with parent := some p } := by
    simp only [con_attach]
    rw [mapCon_cons_ne _ _ _ _ hcp, mapCon_cons_ne _ _ _ _ hcp, mapCon_cons_same]
  have hcons_p : (con_attach s c p).cons p =
      { s.cons p with nodes_head := (s.cons p).nodes_head ++ [c],
                      focus_head := (s.cons p).focus_head ++ [c] } := by
    simp only [con_attach]
    rw [mapCon_cons_same, mapCon_cons_same, mapCon_cons_ne _ _ _ _ (Ne.symm hcp)]
  have hmemn : c ∈ (s.cons p).nodes_head ++ [c] :=
    List.mem_append_right _ (List.mem_singleton_self c)
  have hmemf : c ∈ (s.cons p).focus_head ++ [c] :=
    List.mem_append_right _ (List.mem_singleton_self c)
  have herasen : ((s.cons p).nodes_head ++ [c]).erase c = (s.cons p).nodes_head := by
    rw [List.erase_append_right _ hn, List.erase_cons_head, List.append_nil]
  have herasef : ((s.cons p).focus_head ++ [c]).erase c = (s.cons p).focus_head := by
    rw [List.erase_append_right _ hf, List.erase_cons_head, List.append_nil]
  have hdet : con_detach (con_attach s c p) c =
      some (mapCon (con_attach s c p) p (fun k =>
        { k with nodes_head := (s.cons p).nodes_head,
                 focus_head := (s.cons p).focus_head })) := by
    simp only [con_detach, hcons_c, hcons_p, tailq_remove, if_pos hmemn, if_pos hmemf,
      herasen, herasef, if_neg ht]
    rfl
  refine ⟨_, hdet, ?_, ?_⟩
  · rw [mapCon_cons_same]
  · rw [mapCon_cons_same]

/-- Witness for C6 (amended): attaching the fresh plain container 5 to
workspace 2 of the example state and detaching it again leaves the
workspace's child and focus lists as they were. -/
theorem c6_attach_detach_roundtrip_witness :
    (((con_detach (con_attach exS 5 2) 5).getD exS).cons 2).nodes_head =
      (exS.cons 2).nodes_head ∧
    (((con_detach (con_attach exS 5 2) 5).getD exS).cons 2).focus_head =
      (exS.cons 2).focus_head := by
  obtain ⟨s', h1, h2, h3⟩ :=
    c6_attach_detach_roundtrip exS 5 2 (by decide) (by decide) (by decide) (by decide)
  rw [h1]
  exact ⟨h2, h3⟩

/-- The pristine startup state: empty registry, nothing focused, fresh
allocator and color counter. -/
def initState : State :=
  { cons := fun _ => emptyCon, all_cons := [], focused := none,
    next_id := 0, cnt := 0, notifications := [] }

/-- C7 counterexample: the node returned by `con_new` does not have the
empty string as name: line 32 of con.c assigns `strdup("")` but line 38
immediately overwrites it with `strdup(colors[cnt])`, so on a fresh
counter the name is the first debug color. -/
theorem c7_con_new_name_cex :
    ((con_new initState none).1.cons (con_new initState none).2).name = "#ff0000" ∧
    ((con_new initState none).1.cons (con_new initState none).2).name ≠ "" := by
  constructor
  · rfl
  · decide

/-- C7 (amended): `con_new` returns a node whose name is the current debug
palette color `colors[cnt]` (not the empty string — the `strdup("")`
default is immediately overwritten), whose orientation is
`NO_ORIENTATION`, window absent, fullscreen mode `CF_NONE`, urgent false,
and type `CT_CON`; the node is appended to the tail of the registry; and
it is attached to the parent — appearing at the tail of the parent's
`children` and `focus_order`, with its `parent` field set — exactly when
a parent is given. -/
theorem c7_con_new_fields (s : State) (p : Nat) (hp : p ≠ s.next_id) :
    ((con_new s none).2 = s.next_id ∧
     (con_new s none).1.cons s.next_id =
       { type := CT_CON, name := colors.getD s.cnt "",
         orientation := NO_ORIENTATION, percent := 0, window := none,
         fullscreen_mode := CF_NONE, urgent := false, parent := none,
         nodes_head := [], floating_head := [], focus_head := [] } ∧
     (con_new s none).1.all_cons = s.all_cons ++ [s.next_id] ∧
     (∀ x, x ≠ s.next_id → (con_new s none).1.cons x = s.cons x)) ∧
    ((con_new s (some p)).2 = s.next_id ∧
     (con_new s (some p)).1.cons s.next_id =
       { type := CT_CON, name := colors.getD s.cnt "",
         orientation := NO_ORIENTATION, percent := 0, window := none,
         fullscreen_mode := CF_NONE, urgent := false, parent := some p,
         nodes_head := [], floating_head := [], focus_head := [] } ∧
     (con_new s (some p)).1.all_cons = s.all_cons ++ [s.next_id] ∧
     ((con_new s (some p)).1.cons p).nodes_head =
       (s.cons p).nodes_head ++ [s.next_id] ∧
     ((con_new s (some p)).1.cons p).focus_head =
       (s.cons p).focus_head ++ [s.next_id]) := by
  have hpc : s.next_id ≠ p := fun h => hp h.symm
  have hbase_i : (con_new s none).1.cons s.next_id =
      { type := CT_CON, name := colors.getD s.cnt "",
        orientation := NO_ORIENTATION, percent := 0, window := none,
        fullscreen_mode := CF_NONE, urgent := false, parent := none,
        nodes_head := [], floating_head := [], focus_head := [] } := by
    show Function.update s.cons s.next_id _ s.next_id = _
    rw [Function.update_same]
  have hbase_ne : ∀ x, x ≠ s.next_id → (con_new s none).1.cons x = s.cons x := by
    intro x hx
    show Function.update s.cons s.next_id _ x = s.cons x
    rw [Function.update_noteq hx]
  have h1same : (con_new s (some p)).1 = con_attach (con_new s none).1 s.next_id p := rfl
  constructor
  · exact ⟨rfl, hbase_i, rfl, hbase_ne⟩
  · refine ⟨rfl, ?_, rfl, ?_, ?_⟩
    · rw [h1same]
      simp only [con_attach]
      rw [mapCon_cons_ne _ _ _ _ hpc, mapCon_cons_ne _ _ _ _ hpc, mapCon_cons_same,
        hbase_i]
    · rw [h1same]
      simp only [con_attach]
      rw [mapCon_cons_same, mapCon_cons_same, mapCon_cons_ne _ _ _ _ hp,
        hbase_ne p hp]
    · rw [h1same]
      simp only [con_attach]
      rw [mapCon_cons_same, mapCon_cons_same, mapCon_cons_ne _ _ _ _ hp,
        hbase_ne p hp]

/-- Witness for C7 (amended): creating a node in the startup state without
a parent and with parent 5. -/
theorem c7_con_new_fields_witness :
    (con_new initState none).1.all_cons = [0] ∧
    ((con_new initState (some 5)).1.cons 5).nodes_head = [0] := by
  have h := c7_con_new_fields initState 5 (by decide)
  exact ⟨h.1.2.2.1, h.2.2.2.2.1⟩

/-- C8 (code evaluation at the failing input): `con_detach` on the
parentless root container performs no precondition check — the source
immediately dereferences `con->parent`, which is NULL, an undefined
behaviour modelled as `none`; there is no assertion or reported contract
failure anywhere in `con_detach`. -/
theorem c8_con_detach_unchecked : con_detach exS 0 = none := by
  rfl

/-- The `while (result != NULL && result->type != t) result = result->parent`
walk shared by `con_get_output` and `con_get_workspace`, fuelled.  `some
(some w)` is a normal return, `some none` means the loop exited at NULL so
the subsequent `assert(result != NULL)` aborts, `none` means the fuel ran
out (only possible on a cyclic parent chain). -/
def conWalk (s : State) (t : CType) : Nat → Option Nat → Option (Option Nat)
  | _, none => some none
  | 0, some _ => none
  | f + 1, some c =>
    if (s.cons c).type = t then some (some c)
    else conWalk s t f (s.cons c).parent

/-- `con_get_output`: first container of type `CT_OUTPUT` in the hierarchy,
starting at the node itself. -/
def con_get_output (fuel : Nat) (s : State) (c : Nat) : Option (Option Nat) :=
  conWalk s CT_OUTPUT fuel (some c)

/-- `con_get_workspace`: first container of type `CT_WORKSPACE` in the
hierarchy, starting at the node itself. -/
def con_get_workspace (fuel : Nat) (s : State) (c : Nat) : Option (Option Nat) :=
  conWalk s CT_WORKSPACE fuel (some c)

/-- The inclusive, fuel-bounded ancestor chain of a node: the node itself
followed by the chain of its parent (if any). -/
def ancestors (s : State) : Nat → Nat → List Nat
  | 0, c => [c]
  | f + 1, c =>
    c :: (match (s.cons c).parent with
          | none => []
          | some p => ancestors s f p)

/-- Decidable test used to express "first ancestor of the requested kind". -/
def typeIs (s : State) (t : CType) (x : Nat) : Bool :=
  decide ((s.cons x).type = t)

/-- If the first node of the requested kind on the inclusive ancestor chain
is `w`, the C walk returns `w` (and in particular never reaches the
NULL/assert branch). -/
theorem conWalk_finds_first (s : State) (t : CType) :
    ∀ (f c w : Nat),
      (ancestors s f c).find? (typeIs s t) = some w →
      conWalk s t (f + 1) (some c) = some (some w) := by
  intro f
  induction f with
  | zero =>
    intro c w h
    simp only [ancestors] at h
    cases hty : typeIs s t c with
    | true =>
      rw [List.find?_cons_of_pos _ hty] at h
      cases h
      simp only [conWalk]
      rw [if_pos (of_decide_eq_true hty)]
    | false =>
      rw [List.find?_cons_of_neg _ (by simp [hty])] at h
      simp at h
  | succ f ih =>
    intro c w h
    simp only [ancestors] at h
    cases hty : typeIs s t c with
    | true =>
      rw [List.find?_cons_of_pos _ hty] at h
      cases h
      simp only [conWalk]
      rw [if_pos (of_decide_eq_true hty)]
    | false =>
      rw [List.find?_cons_of_neg _ (by simp [hty])] at h
      have htyne : ¬ (s.cons c).type = t := of_decide_eq_false hty
      cases hpar : (s.cons c).parent with
      | none =>
        rw [hpar] at h
        simp at h
      | some p =>
        rw [hpar] at h
        simp only [conWalk]
        rw [if_neg htyne, hpar]
        exact ih p w h

/-- C9: `con_get_output` and `con_get_workspace` walk `parent` links
starting at the node (inclusive) and return the nearest node of type
`CT_OUTPUT` resp. `CT_WORKSPACE`; under the precondition that the ancestor
chain contains a node of the requested kind (the design guarantee for
focusable nodes), the walk returns that nearest node, so the
`assert(result != NULL)` failure branch (`some none`) is unreachable. -/
theorem c9_ancestor_locator (s : State) (f c wo ww : Nat)
    (ho : (ancestors s f c).find? (typeIs s CT_OUTPUT) = some wo)
    (hw : (ancestors s f c).find? (typeIs s CT_WORKSPACE) = some ww) :
    con_get_output (f + 1) s c = some (some wo) ∧
    con_get_workspace (f + 1) s c = some (some ww) :=
  ⟨conWalk_finds_first s CT_OUTPUT f c wo ho,
   conWalk_finds_first s CT_WORKSPACE f c ww hw⟩

/-- Witness for C9: in the example tree, container 3 sits on output 1 and
workspace 2, and both walks return these without hitting the assert. -/
theorem c9_ancestor_locator_witness :
    con_get_output 11 exS 3 = some (some 1) ∧
    con_get_workspace 11 exS 3 = some (some 2) :=
  c9_ancestor_locator exS 10 3 1 2 (by decide) (by decide)

/-- The `nodes_head` children of a container (the list the BFS of
`con_get_fullscreen_con` expands). -/
def childrenOf (s : State) (x : Nat) : List Nat :=
  (s.cons x).nodes_head

/-- Concatenation of the children of a frontier, left to right: the next
BFS level. -/
def flatChildren (s : State) : List Nat → List Nat
  | [] => []
  | x :: xs => childrenOf s x ++ flatChildren s xs

/-- All nodes within `d` levels below a frontier, in breadth-first level
order with each level enumerated left to right. -/
def levelsList (s : State) : Nat → List Nat → List Nat
  | 0, _ => []
  | d + 1, q => q ++ levelsList s d (flatChildren s q)

/-- The frontier after descending `d` levels. -/
def levelFrontier (s : State) : Nat → List Nat → List Nat
  | 0, q => q
  | d + 1, q => levelFrontier s d (flatChildren s q)

/-- Decidable test `fullscreen_mode != CF_NONE`. -/
def isFullscreen (s : State) (x : Nat) : Bool :=
  decide ((s.cons x).fullscreen_mode ≠ CF_NONE)

/-- The return condition of the BFS loop:
`current != con && current->fullscreen_mode != CF_NONE`. -/
def bfsHit (s : State) (root x : Nat) : Bool :=
  decide (x ≠ root) && isFullscreen s x

/-- The breadth-first queue loop of `con_get_fullscreen_con`, fuelled (one
unit per dequeued entry): pop the head, return it if it hits, else append
its children to the queue tail; `some none` is the `return NULL` exit,
`none` means the fuel ran out. -/
def fsLoop (s : State) (root : Nat) : Nat → List Nat → Option (Option Nat)
  | _, [] => some none
  | 0, _ :: _ => none
  | f + 1, cur :: rest =>
    if bfsHit s root cur then some (some cur)
    else fsLoop s root f (rest ++ childrenOf s cur)

/-- `con_get_fullscreen_con`: breadth-first search below `c`, starting with
the queue holding `c` itself (which can never be returned). -/
def con_get_fullscreen_con (fuel : Nat) (s : State) (c : Nat) : Option (Option Nat) :=
  fsLoop s c fuel [c]

/-- Auxiliary: `find?` over an append when the first part has no match. -/
theorem find?_append_left_none (p : Nat → Bool) :
    ∀ (l₁ l₂ : List Nat), l₁.find? p = none →
      (l₁ ++ l₂).find? p = l₂.find? p := by
  intro l₁
  induction l₁ with
  | nil => intro l₂ _; rfl
  | cons a t ih =>
    intro l₂ h
    cases hpa : p a with
    | true => rw [List.find?_cons_of_pos _ hpa] at h; exact absurd h (by simp)
    | false =>
      rw [List.find?_cons_of_neg _ (by simp [hpa])] at h
      rw [List.cons_append, List.find?_cons_of_neg _ (by simp [hpa])]
      exact ih l₂ h

/-- Auxiliary: `find?` over an append when the first part matches. -/
theorem find?_append_left_some (p : Nat → Bool) :
    ∀ (l₁ l₂ : List Nat) (y : Nat), l₁.find? p = some y →
      (l₁ ++ l₂).find? p = some y := by
  intro l₁
  induction l₁ with
  | nil => intro l₂ y h; exact absurd h (by simp)
  | cons a t ih =>
    intro l₂ y h
    cases hpa : p a with
    | true =>
      rw [List.find?_cons_of_pos _ hpa] at h
      rw [List.cons_append, List.find?_cons_of_pos _ hpa]
      exact h
    | false =>
      rw [List.find?_cons_of_neg _ (by simp [hpa])] at h
      rw [List.cons_append, List.find?_cons_of_neg _ (by simp [hpa])]
      exact ih l₂ y h

/-- Auxiliary: `find?` only depends on the predicate's values on the list. -/
theorem find?_congr_on (p q : Nat → Bool) :
    ∀ l : List Nat, (∀ x ∈ l, p x = q x) → l.find? p = l.find? q := by
  intro l
  induction l with
  | nil => intro _; rfl
  | cons a t ih =>
    intro h
    have ha := h a (List.mem_cons_self ..)
    cases hqa : q a with
    | true =>
      rw [List.find?_cons_of_pos _ (ha.trans hqa), List.find?_cons_of_pos _ hqa]
    | false =>
      rw [List.find?_cons_of_neg _ (by simp [ha, hqa]),
          List.find?_cons_of_neg _ (by simp [hqa])]
      exact ih (fun x hx => h x (List.mem_cons_of_mem _ hx))

/-- Dequeuing a hit-free block `q` leaves the queue loop at the remaining
queue plus the children of `q`, having spent `q.length` fuel. -/
theorem fsLoop_no_hit (s : State) (root : Nat) :
    ∀ (q : List Nat) (f : Nat) (acc : List Nat),
      (∀ x ∈ q, bfsHit s root x = false) → q.length ≤ f →
      fsLoop s root f (q ++ acc) =
        fsLoop s root (f - q.length) (acc ++ flatChildren s q) := by
  intro q
  induction q with
  | nil =>
    intro f acc _ _
    show fsLoop s root f acc = fsLoop s root (f - 0) (acc ++ flatChildren s [])
    rw [Nat.sub_zero, show flatChildren s [] = [] from rfl, List.append_nil]
  | cons x q' ih =>
    intro f acc hnh hlen
    cases f with
    | zero => exact absurd hlen (by simp)
    | succ f' =>
      have hx : bfsHit s root x = false := hnh x (List.mem_cons_self ..)
      have hlen' : q'.length ≤ f' := by
        simp only [List.length_cons] at hlen
        omega
      simp only [List.cons_append, fsLoop]
      rw [if_neg (by simp [hx])]
      show fsLoop s root f' (q' ++ acc ++ childrenOf s x) =
        fsLoop s root (f' + 1 - (x :: q').length) (acc ++ flatChildren s (x :: q'))
      rw [List.append_assoc]
      rw [ih f' (acc ++ childrenOf s x)
        (fun y hy => hnh y (List.mem_cons_of_mem _ hy)) hlen']
      rw [show (x :: q').length = q'.length + 1 from rfl, Nat.succ_sub_succ]
      show _ = fsLoop s root (f' - q'.length) (acc ++ (childrenOf s x ++ flatChildren s q'))
      rw [← List.append_assoc]

/-- If the queue block `q` contains a hit, the loop returns the first one. -/
theorem fsLoop_hit (s : State) (root : Nat) :
    ∀ (q : List Nat) (f : Nat) (acc : List Nat) (y : Nat),
      q.find? (bfsHit s root) = some y → q.length ≤ f →
      fsLoop s root f (q ++ acc) = some (some y) := by
  intro q
  induction q with
  | nil => intro f acc y h _; exact absurd h (by simp)
  | cons x q' ih =>
    intro f acc y h hlen
    cases f with
    | zero => exact absurd hlen (by simp)
    | succ f' =>
      have hlen' : q'.length ≤ f' := by
        simp only [List.length_cons] at hlen
        omega
      cases hx : bfsHit s root x with
      | true =>
        rw [List.find?_cons_of_pos _ hx] at h
        cases h
        simp only [List.cons_append, fsLoop]
        rw [if_pos hx]
      | false =>
        rw [List.find?_cons_of_neg _ (by simp [hx])] at h
        simp only [List.cons_append, fsLoop]
        rw [if_neg (by simp [hx])]
        show fsLoop s root f' (q' ++ acc ++ childrenOf s x) = some (some y)
        rw [List.append_assoc]
        exact ih f' (acc ++ childrenOf s x) y h hlen'

/-- The queue loop started on a frontier whose subtree is exhausted within
`d` levels returns exactly the first hit of the level-order enumeration
(or the NULL exit when there is none), given fuel for all of it. -/
theorem fsLoop_levels (s : State) (root : Nat) :
    ∀ (d : Nat) (q : List Nat) (f : Nat),
      levelFrontier s d q = [] → (levelsList s d q).length ≤ f →
      fsLoop s root f q = some ((levelsList s d q).find? (bfsHit s root)) := by
  intro d
  induction d with
  | zero =>
    intro q f hfr _
    have hq : q = [] := hfr
    subst hq
    cases f <;> rfl
  | succ d ih =>
    intro q f hfr hlen
    have hfr' : levelFrontier s d (flatChildren s q) = [] := hfr
    have hlensplit : (levelsList s (d + 1) q).length =
        q.length + (levelsList s d (flatChildren s q)).length := by
      show (q ++ levelsList s d (flatChildren s q)).length = _
      rw [List.length_append]
    cases hq : q.find? (bfsHit s root) with
    | some y =>
      have hlen1 : q.length ≤ f := by omega
      have h1 := fsLoop_hit s root q f [] y hq hlen1
      rw [List.append_nil] at h1
      rw [h1]
      have h2 : (levelsList s (d + 1) q).find? (bfsHit s root) = some y := by
        show ((q ++ levelsList s d (flatChildren s q)).find? (bfsHit s root)) = some y
        exact find?_append_left_some _ _ _ y hq
      rw [h2]
    | none =>
      have hnh : ∀ x ∈ q, bfsHit s root x = false := by
        intro x hx
        have h3 := List.find?_eq_none.mp hq x hx
        simpa using h3
      have hlen1 : q.length ≤ f := by omega
      have h2 := fsLoop_no_hit s root q f [] hnh hlen1
      rw [List.append_nil, List.nil_append] at h2
      rw [h2]
      have hlen2 : (levelsList s d (flatChildren s q)).length ≤ f - q.length := by omega
      rw [ih (flatChildren s q) (f - q.length) hfr' hlen2]
      have h4 : (levelsList s (d + 1) q).find? (bfsHit s root) =
          (levelsList s d (flatChildren s q)).find? (bfsHit s root) := by
        show ((q ++ levelsList s d (flatChildren s q)).find? (bfsHit s root)) = _
        exact find?_append_left_none _ _ _ hq
      rw [h4]

/-- `con_get_fullscreen_con` with fuel covering the whole (finite, acyclic
below the root) subtree equals the first strict descendant in level order
whose fullscreen mode is set. -/
theorem con_get_fullscreen_con_levels (d fb : Nat) (s : State) (root : Nat)
    (hfr : levelFrontier s d (childrenOf s root) = [])
    (hroot : root ∉ levelsList s d (childrenOf s root))
    (hfb : (levelsList s d (childrenOf s root)).length + 1 ≤ fb) :
    con_get_fullscreen_con fb s root =
      some ((levelsList s d (childrenOf s root)).find? (isFullscreen s)) := by
  cases fb with
  | zero => exact absurd hfb (by omega)
  | succ fb' =>
    show fsLoop s root (fb' + 1) [root] = _
    have hroothit : ¬ (bfsHit s root root = true) := by simp [bfsHit]
    show (if bfsHit s root root then some (some root)
          else fsLoop s root fb' ([] ++ childrenOf s root)) = _
    rw [if_neg hroothit, List.nil_append,
      fsLoop_levels s root d (childrenOf s root) fb' hfr (by omega)]
    have hcong : (levelsList s d (childrenOf s root)).find? (bfsHit s root) =
        (levelsList s d (childrenOf s root)).find? (isFullscreen s) := by
      apply find?_congr_on
      intro x hx
      have hxroot : x ≠ root := fun h => hroot (h ▸ hx)
      simp [bfsHit, hxroot]
    rw [hcong]

/-- C3: `con_get_fullscreen_con` returns the first strict descendant of the
search root, in breadth-first level order with ties broken by each level's
left-to-right child order, whose fullscreen mode is not `CF_NONE`, never
returning the root itself, and returns the NULL result when no strict
descendant is fullscreen — stated as equality with the `find?` over the
level-order enumeration of the strict descendants (`levelsList` on the
root's children), for a subtree that is exhausted within `d` levels, does
not cycle back to the root, and fuel covering the whole subtree.  In
particular a fullscreen node at depth 2 precedes one at depth 3. -/
theorem c3_fullscreen_search_level_order (s : State) (root d fb : Nat)
    (hfr : levelFrontier s d (childrenOf s root) = [])
    (hroot : root ∉ levelsList s d (childrenOf s root))
    (hfb : (levelsList s d (childrenOf s root)).length + 1 ≤ fb) :
    con_get_fullscreen_con fb s root =
      some ((levelsList s d (childrenOf s root)).find? (isFullscreen s)) :=
  con_get_fullscreen_con_levels d fb s root hfr hroot hfb

/-- Heap for the C3 witness: root 0 with children 1, 2; node 3 (child of 1,
depth 2) and node 5 (child of 3, depth 3) are fullscreen; node 4 (child of
2, depth 2) is not. -/
def exCons3 : Nat → Con := fun n =>
  if n = 0 then { emptyCon with nodes_head := [1, 2] }
  else if n = 1 then { emptyCon with parent := some 0, nodes_head := [3] }
  else if n = 2 then { emptyCon with parent := some 0, nodes_head := [4] }
  else if n = 3 then { emptyCon with parent := some 1, nodes_head := [5], fullscreen_mode := CF_OUTPUT }
  else if n = 4 then { emptyCon with parent := some 2 }
  else if n = 5 then { emptyCon with parent := some 3, fullscreen_mode := CF_OUTPUT }
  else emptyCon

/-- State for the C3 witness. -/
def exS3 : State :=
  { cons := exCons3, all_cons := [0, 1, 2, 3, 4, 5], focused := none,
    next_id := 6, cnt := 0, notifications := [] }

/-- Witness for C3: with fullscreen nodes at depth 2 (node 3) and depth 3
(node 5) below the search root 0, the BFS returns the depth-2 node 3. -/
theorem c3_fullscreen_search_level_order_witness :
    con_get_fullscreen_con 10 exS3 0 = some (some 3) := by
  rw [c3_fullscreen_search_level_order exS3 0 4 10 (by decide) (by decide) (by decide)]
  decide

/-- `con_toggle_fullscreen`: when the node is not fullscreen, look up its
workspace (`con_get_workspace`, whose assert failure or fuel exhaustion
propagates as `none`) and search it for an existing fullscreen container;
if one exists the toggle returns with no state change, otherwise the node
enters `CF_OUTPUT`.  When the node is fullscreen it always returns to
`CF_NONE`.  The `_NET_WM_STATE` push to X11 is external and stateless
here. -/
def con_toggle_fullscreen (fw fb : Nat) (s : State) (c : Nat) : Option State :=
  if (s.cons c).fullscreen_mode = CF_NONE then
    match con_get_workspace fw s c with
    | some (some w) =>
      match con_get_fullscreen_con fb s w with
      | some (some _) => some s
      | some none => some (mapCon s c (fun k => { k with fullscreen_mode := CF_OUTPUT }))
      | none => none
    | _ => none
  else
    some (mapCon s c (fun k => { k with fullscreen_mode := CF_NONE }))

/-- C1: given the workspace ancestor `w` of `c` and a finite acyclic
workspace subtree, toggling fullscreen on a non-fullscreen node is a
complete no-op when some strict descendant of the workspace is already
fullscreen, sets the node to `CF_OUTPUT` when none is, and toggling a
fullscreen node unconditionally resets it to `CF_NONE` (changing nothing
else). -/
theorem c1_toggle_fullscreen_exclusivity (fw fb d : Nat) (s : State) (c w : Nat)
    (hw : con_get_workspace fw s c = some (some w))
    (hfr : levelFrontier s d (childrenOf s w) = [])
    (hroot : w ∉ levelsList s d (childrenOf s w))
    (hfb : (levelsList s d (childrenOf s w)).length + 1 ≤ fb) :
    ((s.cons c).fullscreen_mode ≠ CF_NONE →
      con_toggle_fullscreen fw fb s c =
        some (mapCon s c (fun k => { k with fullscreen_mode := CF_NONE }))) ∧
    ((s.cons c).fullscreen_mode = CF_NONE →
      (∃ x ∈ levelsList s d (childrenOf s w), (s.cons x).fullscreen_mode ≠ CF_NONE) →
      con_toggle_fullscreen fw fb s c = some s) ∧
    ((s.cons c).fullscreen_mode = CF_NONE →
      (∀ x ∈ levelsList s d (childrenOf s w), (s.cons x).fullscreen_mode = CF_NONE) →
      con_toggle_fullscreen fw fb s c =
        some (mapCon s c (fun k => { k with fullscreen_mode := CF_OUTPUT }))) := by
  have hbfs := con_get_fullscreen_con_levels d fb s w hfr hroot hfb
  refine ⟨?_, ?_, ?_⟩
  · intro hne
    unfold con_toggle_fullscreen
    rw [if_neg hne]
  · intro heq hex
    obtain ⟨x, hxmem, hxfs⟩ := hex
    have hsome : ((levelsList s d (childrenOf s w)).find? (isFullscreen s)).isSome :=
      List.find?_isSome.mpr ⟨x, hxmem, by simp [isFullscreen, hxfs]⟩
    obtain ⟨y, hy⟩ := Option.isSome_iff_exists.mp hsome
    unfold con_toggle_fullscreen
    rw [if_pos heq]
    simp only [hw, hbfs, hy]
  · intro heq hall
    have hnone : (levelsList s d (childrenOf s w)).find? (isFullscreen s) = none :=
      List.find?_eq_none.mpr (fun x hx => by simp [isFullscreen, hall x hx])
    unfold con_toggle_fullscreen
    rw [if_pos heq]
    simp only [hw, hbfs, hnone]

/-- Witness for C1: in the example state, node 4 of workspace 2 is already
fullscreen, so toggling fullscreen on its non-fullscreen sibling 3 changes
nothing at all. -/
theorem c1_toggle_fullscreen_exclusivity_witness :
    con_toggle_fullscreen 10 10 exS 3 = some exS := by
  have h := c1_toggle_fullscreen_exclusivity 10 10 1 exS 3 2
    (by decide) (by decide) (by decide) (by decide)
  exact h.2.1 (by decide) ⟨4, by decide, by decide⟩

/-- Step 2 of `con_focus`: `TAILQ_REMOVE` + `TAILQ_INSERT_HEAD` on the
parent's focus list, moving `c` to the head. -/
def focusPromote (s : State) (c p : Nat) : State :=
  mapCon s p (fun k => { k with focus_head := c :: k.focus_head.erase c })

/-- Tail of `con_focus` after the recursion: set the global focused
pointer, and if the node is urgent clear the flag and record the
`workspace_update_urgent_flag(con_get_workspace(con))` call. -/
def focusFinish (fuel : Nat) (s2 : State) (c : Nat) : Option State :=
  let s3 : State := { s2 with focused := some c }
  if (s3.cons c).urgent then
    let s4 := mapCon s3 c (fun k => { k with urgent := false })
    match con_get_workspace fuel s4 c with
    | some (some w) => some { s4 with notifications := s4.notifications ++ [w] }
    | _ => none
  else some s3

/-- `con_focus`, fuelled (the fuel bounds the recursion depth and the
workspace walk): promotes the node in its parent's focus list (removal of
a node absent from that list is undefined behaviour, `none`; a NULL parent
dereference likewise), recurses on the parent while the grandparent
exists, then runs the focused/urgent tail.  The outermost call runs its
tail last, so the global focus pointer ends at the original node. -/
def con_focus : Nat → State → Nat → Option State
  | 0, _, _ => none
  | fuel + 1, s, c =>
    match (s.cons c).parent with
    | none => none
    | some p =>
      if c ∈ (s.cons p).focus_head then
        match ((focusPromote s c p).cons p).parent with
        | some _ =>
          match con_focus fuel (focusPromote s c p) p with
          | none => none
          | some s2 => focusFinish fuel s2 c
        | none => focusFinish fuel (focusPromote s c p) c
      else none

/-- The inclusive parent chain of a node up to the parentless root,
fuel-bounded: `some [c, p1, ..., pk]` where `pk` has no parent. -/
def chainTo : Nat → State → Nat → Option (List Nat)
  | 0, s, c =>
    match (s.cons c).parent with
    | none => some [c]
    | some _ => none
  | f + 1, s, c =>
    match (s.cons c).parent with
    | none => some [c]
    | some p => (chainTo f s p).map (fun l => c :: l)

theorem focusPromote_parent (s : State) (c p : Nat) (x : Nat) :
    ((focusPromote s c p).cons x).parent = (s.cons x).parent := by
  unfold focusPromote
  rw [mapCon_cons]
  split
  · rename_i hx
    subst hx
    rfl
  · rfl

theorem focusPromote_nodes (s : State) (c p : Nat) (x : Nat) :
    ((focusPromote s c p).cons x).nodes_head = (s.cons x).nodes_head := by
  unfold focusPromote
  rw [mapCon_cons]
  split
  · rename_i hx
    subst hx
    rfl
  · rfl

theorem focusPromote_floating (s : State) (c p : Nat) (x : Nat) :
    ((focusPromote s c p).cons x).floating_head = (s.cons x).floating_head := by
  unfold focusPromote
  rw [mapCon_cons]
  split
  · rename_i hx
    subst hx
    rfl
  · rfl

theorem focusPromote_urgent (s : State) (c p : Nat) (x : Nat) :
    ((focusPromote s c p).cons x).urgent = (s.cons x).urgent := by
  unfold focusPromote
  rw [mapCon_cons]
  split
  · rename_i hx
    subst hx
    rfl
  · rfl

theorem focusPromote_focus_same (s : State) (c p : Nat) :
    ((focusPromote s c p).cons p).focus_head =
      c :: ((s.cons p).focus_head).erase c := by
  unfold focusPromote
  rw [mapCon_cons_same]

theorem focusPromote_focus_ne (s : State) (c p x : Nat) (h : x ≠ p) :
    ((focusPromote s c p).cons x).focus_head = (s.cons x).focus_head := by
  unfold focusPromote
  rw [mapCon_cons_ne _ _ _ _ h]

@[simp] theorem focusPromote_notifications (s : State) (c p : Nat) :
    (focusPromote s c p).notifications = s.notifications := rfl

/-- Parent chains only depend on the parent fields. -/
theorem chainTo_congr (s1 s : State)
    (hpar : ∀ x, (s1.cons x).parent = (s.cons x).parent) :
    ∀ (f c : Nat), chainTo f s1 c = chainTo f s c := by
  intro f
  induction f with
  | zero =>
    intro c
    simp only [chainTo, hpar c]
  | succ f ih =>
    intro c
    simp only [chainTo, hpar c]
    cases (s.cons c).parent with
    | none => rfl
    | some p =>
      show Option.map (fun l => c :: l) (chainTo f s1 p) =
        Option.map (fun l => c :: l) (chainTo f s p)
      rw [ih p]

theorem chainTo_head :
    ∀ (f : Nat) (s : State) (c : Nat) (L : List Nat),
      chainTo f s c = some L → ∃ t, L = c :: t := by
  intro f s c L h
  cases f with
  | zero =>
    unfold chainTo at h
    cases hpar : (s.cons c).parent with
    | none => rw [hpar] at h; cases h; exact ⟨[], rfl⟩
    | some p => rw [hpar] at h; cases h
  | succ f =>
    unfold chainTo at h
    cases hpar : (s.cons c).parent with
    | none => rw [hpar] at h; cases h; exact ⟨[], rfl⟩
    | some p =>
      rw [hpar] at h
      obtain ⟨l, _, hl⟩ := Option.map_eq_some'.mp h
      exact ⟨l, hl.symm⟩

theorem chainTo_parent_none (f : Nat) (s : State) (c : Nat)
    (h : (s.cons c).parent = none) : chainTo f s c = some [c] := by
  cases f with
  | zero => unfold chainTo; rw [h]
  | succ f => unfold chainTo; rw [h]

/-- Inversion of `chainTo` at a node with a parent. -/
theorem chainTo_cons (f : Nat) (s : State) (c p : Nat) (L : List Nat)
    (hpar : (s.cons c).parent = some p) (h : chainTo f s c = some L) :
    ∃ f1 L1, f = f1 + 1 ∧ chainTo f1 s p = some L1 ∧ L = c :: L1 := by
  cases f with
  | zero =>
    unfold chainTo at h
    rw [hpar] at h
    cases h
  | succ f =>
    unfold chainTo at h
    rw [hpar] at h
    obtain ⟨l, hl, hl2⟩ := Option.map_eq_some'.mp h
    exact ⟨f, l, rfl, hl, hl2.symm⟩

theorem clearUrgent_parent (s : State) (c x : Nat) :
    ((mapCon s c (fun k => { k with urgent := false })).cons x).parent = (s.cons x).parent := by
  rw [mapCon_cons]
  split
  · rename_i hx
    subst hx
    rfl
  · rfl

theorem clearUrgent_nodes (s : State) (c x : Nat) :
    ((mapCon s c (fun k => { k with urgent := false })).cons x).nodes_head = (s.cons x).nodes_head := by
  rw [mapCon_cons]
  split
  · rename_i hx
    subst hx
    rfl
  · rfl

theorem clearUrgent_floating (s : State) (c x : Nat) :
    ((mapCon s c (fun k => { k with urgent := false })).cons x).floating_head = (s.cons x).floating_head := by
  rw [mapCon_cons]
  split
  · rename_i hx
    subst hx
    rfl
  · rfl

theorem clearUrgent_focus (s : State) (c x : Nat) :
    ((mapCon s c (fun k => { k with urgent := false })).cons x).focus_head = (s.cons x).focus_head := by
  rw [mapCon_cons]
  split
  · rename_i hx
    subst hx
    rfl
  · rfl

/-- Joint effect of the focused/urgent tail of `con_focus`: the focus
pointer is set to the node, all structural fields and all focus lists are
untouched, the node's urgent flag ends false, every other urgent flag is
untouched, and exactly one notification is appended iff the node was
urgent. -/
theorem focusFinish_spec (fuel : Nat) (s2 : State) (c : Nat) (s' : State)
    (h : focusFinish fuel s2 c = some s') :
    s'.focused = some c ∧
    (∀ x, (s'.cons x).parent = (s2.cons x).parent) ∧
    (∀ x, (s'.cons x).nodes_head = (s2.cons x).nodes_head) ∧
    (∀ x, (s'.cons x).floating_head = (s2.cons x).floating_head) ∧
    (∀ x, (s'.cons x).focus_head = (s2.cons x).focus_head) ∧
    (s'.cons c).urgent = false ∧
    (∀ x, x ≠ c → (s'.cons x).urgent = (s2.cons x).urgent) ∧
    s'.notifications.length =
      s2.notifications.length + (if (s2.cons c).urgent then 1 else 0) := by
  simp only [focusFinish] at h
  by_cases hu : (s2.cons c).urgent = true
  · rw [if_pos hu] at h
    cases hwk : con_get_workspace fuel
        (mapCon { s2 with focused := some c } c (fun k => { k with urgent := false })) c with
    | none =>
      rw [hwk] at h
      exact absurd h (by simp)
    | some o =>
      cases o with
      | none =>
        rw [hwk] at h
        exact absurd h (by simp)
      | some w =>
        rw [hwk] at h
        have hs' : { mapCon { s2 with focused := some c } c (fun k => { k with urgent := false }) with
            notifications := (mapCon { s2 with focused := some c } c
              (fun k => { k with urgent := false })).notifications ++ [w] } = s' := by
          injection h
        subst hs'
        refine ⟨rfl, ?_, ?_, ?_, ?_, ?_, ?_, ?_⟩
        · intro x
          exact clearUrgent_parent { s2 with focused := some c } c x
        · intro x
          exact clearUrgent_nodes { s2 with focused := some c } c x
        · intro x
          exact clearUrgent_floating { s2 with focused := some c } c x
        · intro x
          exact clearUrgent_focus { s2 with focused := some c } c x
        · show ((mapCon { s2 with focused := some c } c
              (fun k => { k with urgent := false })).cons c).urgent = false
          rw [mapCon_cons_same]
        · intro x hx
          show ((mapCon { s2 with focused := some c } c
              (fun k => { k with urgent := false })).cons x).urgent = _
          rw [mapCon_cons_ne _ _ _ _ hx]
        · show (s2.notifications ++ [w]).length = _
          rw [if_pos hu, List.length_append]
          rfl
  · rw [if_neg hu] at h
    have hs' : ({ s2 with focused := some c } : State) = s' := by
      injection h
    subst hs'
    have hfu : (s2.cons c).urgent = false := by
      revert hu
      cases (s2.cons c).urgent <;> simp
    refine ⟨rfl, fun x => rfl, fun x => rfl, fun x => rfl, fun x => rfl, hfu,
      fun x _ => rfl, ?_⟩
    rw [if_neg hu]
    rfl

/-- Master specification of `con_focus` along the parent chain
`L = [c, p1, ..., pk]` (`pk` the parentless root): on success the global
focus pointer ends at `c`; parent fields, child lists and floating lists
are untouched everywhere; every promoted node (each chain node except the
root) moves to the head of its own parent's focus list with the remaining
entries kept in order (`erase` of the promoted node); focus lists of all
other containers are untouched; every promoted node ends not urgent and no
other urgent flag changes; and exactly one notification is issued per
promoted node that was urgent. -/
theorem con_focus_master :
    ∀ (fuel fc : Nat) (s : State) (c : Nat) (L : List Nat) (s' : State),
      chainTo fc s c = some L → L.Nodup → con_focus fuel s c = some s' →
      s'.focused = some c ∧
      (∀ x, (s'.cons x).parent = (s.cons x).parent) ∧
      (∀ x, (s'.cons x).nodes_head = (s.cons x).nodes_head) ∧
      (∀ x, (s'.cons x).floating_head = (s.cons x).floating_head) ∧
      (∀ pr ∈ L.zip L.tail,
        (s'.cons pr.2).focus_head = pr.1 :: ((s.cons pr.2).focus_head).erase pr.1) ∧
      (∀ x, x ∉ L.tail → (s'.cons x).focus_head = (s.cons x).focus_head) ∧
      (∀ a ∈ L.dropLast, (s'.cons a).urgent = false) ∧
      (∀ x, x ∉ L.dropLast → (s'.cons x).urgent = (s.cons x).urgent) ∧
      s'.notifications.length =
        s.notifications.length +
          (L.dropLast.filter (fun a => (s.cons a).urgent)).length := by
  intro fuel
  induction fuel with
  | zero =>
    intro fc s c L s' _ _ hrun
    exact absurd hrun (by simp [con_focus])
  | succ fuel ih =>
    intro fc s c L s' hL hN hrun
    simp only [con_focus] at hrun
    split at hrun
    · exact absurd hrun (by simp)
    · rename_i p hpar
      split at hrun
      swap
      · exact absurd hrun (by simp)
      rename_i hmem
      obtain ⟨f1, L1, rfl, hL1, rfl⟩ := chainTo_cons fc s c p L hpar hL
      have hcL1 : c ∉ L1 := (List.nodup_cons.mp hN).1
      have hN1 : L1.Nodup := (List.nodup_cons.mp hN).2
      split at hrun
      · -- grandparent exists: recursion happened
        rename_i gp hgp
        split at hrun
        · exact absurd hrun (by simp)
        rename_i s2 hrec
        have hchain1 : chainTo f1 (focusPromote s c p) p = some L1 := by
          rw [chainTo_congr (focusPromote s c p) s (focusPromote_parent s c p) f1 p]
          exact hL1
        obtain ⟨I1, I2, I3, I4, I5, I6, I7, I8, I9⟩ :=
          ih f1 (focusPromote s c p) p L1 s2 hchain1 hN1 hrec
        obtain ⟨F1, F2, F3, F4, F5, F6, F7, F8⟩ := focusFinish_spec fuel s2 c s' hrun
        obtain ⟨L2, rfl⟩ := chainTo_head f1 s p L1 hL1
        have hpL2 : p ∉ L2 := (List.nodup_cons.mp hN1).1
        refine ⟨F1, ?_, ?_, ?_, ?_, ?_, ?_, ?_, ?_⟩
        · intro x
          rw [F2 x, I2 x, focusPromote_parent]
        · intro x
          rw [F3 x, I3 x, focusPromote_nodes]
        · intro x
          rw [F4 x, I4 x, focusPromote_floating]
        · intro pr hpr
          rw [show ((c :: p :: L2).zip (c :: p :: L2).tail)
              = (c, p) :: ((p :: L2).zip L2) from List.zip_cons_cons] at hpr
          rcases List.mem_cons.mp hpr with hpr1 | hpr2
          · subst hpr1
            show (s'.cons p).focus_head = c :: ((s.cons p).focus_head).erase c
            rw [F5 p, I6 p (by simpa using hpL2), focusPromote_focus_same]
          · have hmemz := List.of_mem_zip hpr2
            have hb_tail : pr.2 ∈ L2 := hmemz.2
            have hbp : pr.2 ≠ p := fun h => hpL2 (h ▸ hb_tail)
            rw [F5 pr.2, I5 pr hpr2, focusPromote_focus_ne s c p pr.2 hbp]
        · intro x hx
          have hxp : x ≠ p := fun h => hx (by simp [h])
          have hxL2 : x ∉ L2 := fun h => hx (by simp [h])
          rw [F5 x, I6 x (by simpa using hxL2), focusPromote_focus_ne s c p x hxp]
        · intro a ha
          rw [List.dropLast_cons₂] at ha
          rcases List.mem_cons.mp ha with ha1 | ha2
          · subst ha1
            exact F6
          · have haL1 : a ∈ (p :: L2) := (List.dropLast_sublist _).subset ha2
            have hac : a ≠ c := fun h => hcL1 (h ▸ haL1)
            rw [F7 a hac, I7 a ha2]
        · intro x hx
          rw [List.dropLast_cons₂] at hx
          have hxc : x ≠ c := fun h => hx (by simp [h])
          have hxdl : x ∉ (p :: L2).dropLast := fun h => hx (by simp [h])
          rw [F7 x hxc, I8 x hxdl, focusPromote_urgent]
        · have hucs2 : (s2.cons c).urgent = (s.cons c).urgent := by
            rw [I8 c (fun h => hcL1 ((List.dropLast_sublist _).subset h)),
              focusPromote_urgent]
          have hfiltr : (p :: L2).dropLast.filter
                (fun a => ((focusPromote s c p).cons a).urgent)
              = (p :: L2).dropLast.filter (fun a => (s.cons a).urgent) :=
            List.filter_congr (fun a _ => by rw [focusPromote_urgent])
          have F8' : s'.notifications.length = s2.notifications.length +
              (if (s.cons c).urgent then 1 else 0) := by
            rw [F8, hucs2]
          have I9' : s2.notifications.length = s.notifications.length +
              ((p :: L2).dropLast.filter (fun a => (s.cons a).urgent)).length := by
            rw [I9, hfiltr, focusPromote_notifications]
          rw [F8', I9', List.dropLast_cons₂, List.filter_cons]
          cases hu : (s.cons c).urgent
          · simp
          · simp
            omega
      · -- the parent is the root: no recursion
        rename_i hgp
        have hgp' : (s.cons p).parent = none := by
          rw [← focusPromote_parent s c p p]
          exact hgp
        have hL1' : L1 = [p] := by
          have h2 := chainTo_parent_none f1 s p hgp'
          rw [hL1] at h2
          exact Option.some.inj h2
        subst hL1'
        obtain ⟨F1, F2, F3, F4, F5, F6, F7, F8⟩ :=
          focusFinish_spec fuel (focusPromote s c p) c s' hrun
        refine ⟨F1, ?_, ?_, ?_, ?_, ?_, ?_, ?_, ?_⟩
        · intro x
          rw [F2 x, focusPromote_parent]
        · intro x
          rw [F3 x, focusPromote_nodes]
        · intro x
          rw [F4 x, focusPromote_floating]
        · intro pr hpr
          rw [show ((c :: [p]).zip (c :: [p]).tail) = [(c, p)] from rfl] at hpr
          rcases List.mem_cons.mp hpr with hpr1 | hpr2
          · subst hpr1
            show (s'.cons p).focus_head = c :: ((s.cons p).focus_head).erase c
            rw [F5 p, focusPromote_focus_same]
          · exact absurd hpr2 (by simp)
        · intro x hx
          have hxp : x ≠ p := by simpa using hx
          rw [F5 x, focusPromote_focus_ne s c p x hxp]
        · intro a ha
          have hac : a = c := by simpa using ha
          subst hac
          exact F6
        · intro x hx
          have hxc : x ≠ c := by simpa using hx
          rw [F7 x hxc, focusPromote_urgent]
        · have hucs : ((focusPromote s c p).cons c).urgent = (s.cons c).urgent :=
            focusPromote_urgent s c p c
          have F8' : s'.notifications.length =
              (focusPromote s c p).notifications.length +
                (if (s.cons c).urgent then 1 else 0) := by
            rw [F8, hucs]
          rw [F8', focusPromote_notifications]
          show _ = s.notifications.length + (List.filter _ [c]).length
          rw [List.filter_cons]
          cases hu : (s.cons c).urgent
          · simp
          · simp

/-- On a duplicate-free list, `erase` removes exactly the given element
(filter characterization). -/
theorem erase_eq_filter_of_nodup (a : Nat) :
    ∀ (l : List Nat), l.Nodup → l.erase a = l.filter (fun y => y != a) := by
  intro l
  induction l with
  | nil => intro _; rfl
  | cons b t ih =>
    intro h
    by_cases hb : b = a
    · subst hb
      rw [List.erase_cons_head, List.filter_cons, if_neg (by simp)]
      have hbt : b ∉ t := (List.nodup_cons.mp h).1
      refine (List.filter_eq_self.mpr (fun y hy => ?_)).symm
      have hyb : y ≠ b := fun h2 => hbt (h2 ▸ hy)
      simp [hyb]
    · rw [List.erase_cons_tail (by simp [hb]), List.filter_cons,
        if_pos (by simp [hb]), ih (List.nodup_cons.mp h).2]

/-- C2: for a node with a parent, with `L` its duplicate-free inclusive
parent chain ending at the single parentless root, a successful
`con_focus` moves the node and every strict ancestor below the root to the
head of its own parent's focus list, keeps the relative order of the other
siblings in each affected focus list (stated both via the `erase`
characterization and, under the spec invariant that focus lists are
duplicate-free, as equality of the focus lists with the promoted node
filtered out), leaves every children list (and floating list) unchanged,
leaves the focus lists of all other containers unchanged, and sets the
global focus pointer to the node itself. -/
theorem c2_con_focus_promotes (fuel fc : Nat) (s : State) (c : Nat)
    (L : List Nat) (s' : State)
    (hL : chainTo fc s c = some L) (hN : L.Nodup)
    (hrun : con_focus fuel s c = some s') :
    s'.focused = some c ∧
    (∀ x, (s'.cons x).nodes_head = (s.cons x).nodes_head) ∧
    (∀ x, (s'.cons x).floating_head = (s.cons x).floating_head) ∧
    (∀ pr ∈ L.zip L.tail,
      (s'.cons pr.2).focus_head = pr.1 :: ((s.cons pr.2).focus_head).erase pr.1) ∧
    (∀ pr ∈ L.zip L.tail, ((s.cons pr.2).focus_head).Nodup →
      ((s'.cons pr.2).focus_head).filter (fun y => y != pr.1) =
        ((s.cons pr.2).focus_head).filter (fun y => y != pr.1)) ∧
    (∀ x, x ∉ L.tail → (s'.cons x).focus_head = (s.cons x).focus_head) := by
  obtain ⟨M1, _, M3, M4, M5, M6, _, _, _⟩ :=
    con_focus_master fuel fc s c L s' hL hN hrun
  refine ⟨M1, M3, M4, M5, ?_, M6⟩
  intro pr hpr hnd
  rw [M5 pr hpr, List.filter_cons, if_neg (by simp),
    erase_eq_filter_of_nodup pr.1 _ hnd]
  exact List.filter_eq_self.mpr (fun y hy => (List.mem_filter.mp hy).2)

/-- Witness for C2: focusing leaf 3 in the example tree (chain
3 → 2 → 1 → 0) turns workspace 2's focus order `[4, 3]` into `[3, 4]`,
keeps its children `[3, 4]` unchanged et leaves the focus pointer at 3. -/
theorem c2_con_focus_promotes_witness :
    (((con_focus 10 exS 3).getD exS).cons 2).focus_head = [3, 4] ∧
    ((con_focus 10 exS 3).getD exS).focused = some 3 ∧
    (((con_focus 10 exS 3).getD exS).cons 2).nodes_head = [3, 4] := by
  cases hrun : con_focus 10 exS 3 with
  | none =>
    have hs : (con_focus 10 exS 3).isSome = true := by decide
    rw [hrun] at hs
    exact absurd hs (by simp)
  | some s1 =>
    obtain ⟨M1, M2, _, M4, _, _⟩ :=
      c2_con_focus_promotes 10 10 exS 3 [3, 2, 1, 0] s1 (by decide) (by decide) hrun
    rw [show ((some s1).getD exS) = s1 from rfl]
    refine ⟨?_, M1, ?_⟩
    · rw [M4 (3, 2) (by decide)]
      rfl
    · rw [M2 2]
      rfl

/-- C10: a successful `con_focus` clears the urgent flag not only of the
node but of every strict ancestor of it below the root (each promoted
chain node ends not urgent; all other urgent flags are untouched), issues
exactly one workspace urgent-recheck notification per promoted node that
had the flag set, and still leaves the global focus pointer at the node
itself (not at any ancestor). -/
theorem c10_con_focus_clears_urgent (fuel fc : Nat) (s : State) (c : Nat)
    (L : List Nat) (s' : State)
    (hL : chainTo fc s c = some L) (hN : L.Nodup)
    (hrun : con_focus fuel s c = some s') :
    (∀ a ∈ L.dropLast, (s'.cons a).urgent = false) ∧
    (∀ x, x ∉ L.dropLast → (s'.cons x).urgent = (s.cons x).urgent) ∧
    s'.notifications.length =
      s.notifications.length +
        (L.dropLast.filter (fun a => (s.cons a).urgent)).length ∧
    s'.focused = some c := by
  obtain ⟨M1, _, _, _, _, _, M7, M8, M9⟩ :=
    con_focus_master fuel fc s c L s' hL hN hrun
  exact ⟨M7, M8, M9, M1⟩

/-- Witness for C10: focusing leaf 3 in the example tree clears the urgent
flags of 3 and of workspace 2, issuing two notifications (none of the
other chain nodes was urgent), and focus ends at 3. -/
theorem c10_con_focus_clears_urgent_witness :
    ((con_focus 10 exS 3).getD exS).notifications.length = 2 ∧
    ((con_focus 10 exS 3).getD exS).focused = some 3 := by
  cases hrun : con_focus 10 exS 3 with
  | none =>
    have hs : (con_focus 10 exS 3).isSome = true := by decide
    rw [hrun] at hs
    exact absurd hs (by simp)
  | some s1 =>
    obtain ⟨_, _, M9, M1⟩ :=
      c10_con_focus_clears_urgent 10 10 exS 3 [3, 2, 1, 0] s1 (by decide) (by decide) hrun
    rw [show ((some s1).getD exS) = s1 from rfl]
    refine ⟨?_, M1⟩
    rw [M9]
    decide

end I3
